import Mathlib

/-
Verification of the tech-seo-analysis-tool repository.

Shallow embedding of the two source files:
  src/app/page.tsx            (score normalization, severity, CSV escaping,
                               implementation-checklist projection, auto-prioritize,
                               per-field row update)
  src/app/api/recommend/route.ts  (recommendation proxy POST handler and the
                               defensive upstream-response text extractor)

JavaScript machine-level primitives that the source calls (Number conversion,
Math.round, Array.prototype.sort, template-string conversion) are modelled by
explicit Lean functions documented at their definitions.
-/

namespace TechSeo

/-- One inspection row, after the data model of the repository: free-text fields,
a score string, a priority string, and a boolean completion flag. -/
structure Row where
  id : Int
  inspectionElement : String
  issueCategory : String
  issueSubCategory : String
  skillset : String
  analysis : String
  recommendations : String
  implementer : String
  score : String
  priority : String
  check : Bool
deriving DecidableEq, Repr

/-- Whitespace characters recognized by the JavaScript trim used on user
input: space, tab, newline and carriage return (the forms that occur in this
application). -/
def jsWhitespace (c : Char) : Bool :=
  c = ' ' || c = '\t' || c = '\n' || c = '\r'

/-- Model of the JavaScript String.prototype.trim call of the source: strip
leading and trailing whitespace. -/
def jsTrim (s : String) : String :=
  (((s.data.dropWhile jsWhitespace).reverse.dropWhile jsWhitespace).reverse).asString

/-- Model of the JavaScript String.prototype.toUpperCase call of the source,
character by character. -/
def jsToUpper (s : String) : String :=
  (s.data.map Char.toUpper).asString

/-- Decimal value of a list of digit characters, most significant first. -/
def digitsVal (l : List Char) : Nat :=
  l.foldl (fun a c => 10 * a + (c.toNat - 48)) 0

/-- Model of the JavaScript Number(string) conversion as used by the source on
score and priority strings: leading and trailing whitespace is trimmed, the
empty string converts to 0, and a decimal literal with optional sign and
optional fractional part converts to its rational value.  Strings that are not
of this shape (and exotic finite forms such as hexadecimal or exponent
notation, which never arise from this application) are mapped to none, which
every call site treats exactly like a non-finite result (NaN). -/
def jsNum (s : String) : Option Rat :=
  let t := jsTrim s
  if t = "" then some 0
  else
    let signed : Bool × List Char :=
      match t.data with
      | c :: cs => if c = '-' then (true, cs) else if c = '+' then (false, cs) else (false, t.data)
      | [] => (false, t.data)
    let intPart := signed.2.takeWhile Char.isDigit
    let rest := signed.2.drop intPart.length
    let mag : Option Rat :=
      match rest with
      | [] => if intPart.isEmpty then none else some (mkRat (digitsVal intPart) 1)
      | c :: frac =>
        if c = '.' ∧ frac.all Char.isDigit ∧ ¬(intPart.isEmpty ∧ frac.isEmpty) then
          some (mkRat (digitsVal intPart * 10 ^ frac.length + digitsVal frac) (10 ^ frac.length))
        else none
    mag.map (fun m => if signed.1 then -m else m)

/-- Exact subtraction of rationals written through mkRat so that it evaluates
inside the kernel; equal to ordinary subtraction (ratSub_eq below). -/
def ratSub (a b : Rat) : Rat :=
  mkRat (a.num * (b.den : Int) - b.num * (a.den : Int)) (a.den * b.den)

lemma ratSub_eq (a b : Rat) : ratSub a b = a - b := by
  have ha : ((a.den : Rat)) ≠ 0 := Nat.cast_ne_zero.mpr a.den_nz
  have hb : ((b.den : Rat)) ≠ 0 := Nat.cast_ne_zero.mpr b.den_nz
  have hab : a - b = (a.num : Rat) / (a.den : Rat) - (b.num : Rat) / (b.den : Rat) := by
    rw [Rat.num_div_den, Rat.num_div_den]
  rw [ratSub, Rat.mkRat_eq_div, hab, div_sub_div _ _ ha hb]
  push_cast
  ring_nf

/-- Model of JavaScript Math.round: round to the nearest integer, halves
toward positive infinity.  The floor of q + 1/2, computed by integer floor
division so that it evaluates inside the kernel. -/
def jsRound (q : Rat) : Int :=
  (2 * q.num + (q.den : Int)).fdiv (2 * (q.den : Int))

/-- sanitizeScore from page.tsx.  The input models an arbitrary JavaScript
value: none stands for null or undefined, and some s stands for any other
value after the String() conversion the source applies. -/
def sanitizeScore (val : Option String) : String :=
  match val with
  | none => ""
  | some v =>
    let s := jsTrim v
    if jsToUpper s = "N/A" then "N/A"
    else if s = "" then ""
    else
      match jsNum s with
      | none => ""
      | some n => toString (min 9 (max 1 (jsRound n)))

/-- inferSeverity from page.tsx: 0 on empty or N/A scores, otherwise 10 minus
the numeric value of the score. -/
def inferSeverity (score : String) : Rat :=
  if score = "" ∨ score = "N/A" then 0
  else
    match jsNum score with
    | none => 0
    | some n => ratSub 10 n

/-- Quote-doubling step of csvEscape: the replace of every double quote by two
double quotes. -/
def doubleQuotes : List Char → List Char
  | [] => []
  | c :: cs => if c = '"' then '"' :: '"' :: doubleQuotes cs else c :: doubleQuotes cs

/-- The regex test of csvEscape: does the field contain a double quote, a
comma, or a newline. -/
def csvNeedsQuoting (s : String) : Bool :=
  s.data.any (fun c => c = '"' || c = ',' || c = '\n')

/-- csvEscape from page.tsx. -/
def csvEscape (s : String) : String :=
  if csvNeedsQuoting s then "\"" ++ (doubleQuotes s.data).asString ++ "\"" else s

/-- The closed set of normalized scores from the spec. -/
def scoreStrings : List String :=
  ["", "N/A", "1", "2", "3", "4", "5", "6", "7", "8", "9"]

lemma clamp_toString_mem (k : Int) :
    toString (min 9 (max 1 k)) ∈ (["1","2","3","4","5","6","7","8","9"] : List String) := by
  have h1 : (1 : Int) ≤ min 9 (max 1 k) := le_min (by norm_num) (le_max_left 1 k)
  have h2 : min 9 (max 1 k) ≤ 9 := min_le_left 9 (max 1 k)
  set m := min 9 (max 1 k) with hm
  interval_cases m <;> decide

set_option maxHeartbeats 1600000 in
/-- Claim C2: the score normalizer is total, its output always lies in the
closed set containing the empty string, N/A and the digit strings 1 to 9, and
it satisfies the concrete spec examples: 15 clamps to 9, 0 clamps to 1,
case-insensitive n/a maps to N/A, the empty string stays empty, and a
non-numeric string maps to empty.  none models a null or undefined input. -/
theorem c2_sanitize_total_and_in_range :
    (∀ v : Option String, sanitizeScore v ∈ scoreStrings) ∧
    sanitizeScore (some "15") = "9" ∧
    sanitizeScore (some "0") = "1" ∧
    sanitizeScore (some "n/a") = "N/A" ∧
    sanitizeScore (some "") = "" ∧
    sanitizeScore (some "abc") = "" ∧
    sanitizeScore none = "" := by
  refine ⟨?_, by decide, by decide, by decide, by decide, by decide, rfl⟩
  intro v
  match v with
  | none => simp [sanitizeScore, scoreStrings]
  | some s =>
    simp only [sanitizeScore]
    split
    · simp [scoreStrings]
    · split
      · simp [scoreStrings]
      · match hn : jsNum (jsTrim s) with
        | none => simp [scoreStrings]
        | some n =>
          have := clamp_toString_mem (jsRound n)
          simp only [scoreStrings, List.mem_cons] at this ⊢
          tauto

lemma csvNeedsQuoting_iff (s : String) :
    csvNeedsQuoting s = true ↔ (',' ∈ s.data ∨ '"' ∈ s.data ∨ '\n' ∈ s.data) := by
  simp only [csvNeedsQuoting, List.any_eq_true, Bool.or_eq_true, decide_eq_true_eq]
  constructor
  · rintro ⟨c, hc, (h | h) | h⟩ <;> subst h
    · exact Or.inr (Or.inl hc)
    · exact Or.inl hc
    · exact Or.inr (Or.inr hc)
  · rintro (h | h | h) <;> exact ⟨_, h, by simp⟩

/-- Claim C7: a field is wrapped in double quotes with internal double quotes
doubled exactly when it contains a comma, a double quote, or a newline, and is
emitted verbatim otherwise; the concrete round-trip example of the spec holds. -/
theorem c7_csv_escape :
    (∀ s : String,
      ((',' ∈ s.data ∨ '"' ∈ s.data ∨ '\n' ∈ s.data) →
        csvEscape s = "\"" ++ (doubleQuotes s.data).asString ++ "\"") ∧
      (¬(',' ∈ s.data ∨ '"' ∈ s.data ∨ '\n' ∈ s.data) → csvEscape s = s)) ∧
    csvEscape "a,b\"c\nd" = "\"a,b\"\"c\nd\"" ∧
    csvEscape "abcd" = "abcd" := by
  refine ⟨fun s => ⟨fun h => ?_, fun h => ?_⟩, by decide, by decide⟩
  · rw [csvEscape, if_pos ((csvNeedsQuoting_iff s).mpr h)]
  · rw [csvEscape, if_neg]
    intro hb
    exact h ((csvNeedsQuoting_iff s).mp hb)

/-- Witness for claim C7 at a concrete field containing a comma. -/
theorem c7_csv_escape_witness : csvEscape "x,y" = "\"x,y\"" := by
  have h := (c7_csv_escape.1 "x,y").1 (by decide)
  rw [h]
  decide

/-- A projected checklist row: the row spread together with the computed
severity field added by the map step of implementationRows. -/
structure SevRow where
  row : Row
  severity : Rat
deriving DecidableEq, Repr

/-- Insert x into l in front of the first element y with le x y, keeping the
relative order of l. -/
def insertBy (le : α → α → Bool) (x : α) : List α → List α
  | [] => [x]
  | y :: ys => if le x y then x :: y :: ys else y :: insertBy le x ys

/-- Stable sort by insertion.  Models Array.prototype.sort of the source: for
a consistent comparator c the ECMAScript specification determines the result
uniquely as the stable c-sorted permutation, which this function yields with
le a b meaning that c a b is nonpositive. -/
def stableSort (le : α → α → Bool) : List α → List α
  | [] => []
  | x :: xs => insertBy le x (stableSort le xs)

lemma mem_insertBy {le : α → α → Bool} {x a : α} {l : List α} :
    a ∈ insertBy le x l ↔ a = x ∨ a ∈ l := by
  induction l with
  | nil => simp [insertBy]
  | cons y ys ih =>
    simp only [insertBy]
    split
    · simp [List.mem_cons]
    · simp only [List.mem_cons, ih]
      tauto

lemma insertBy_perm (le : α → α → Bool) (x : α) (l : List α) :
    List.Perm (insertBy le x l) (x :: l) := by
  induction l with
  | nil => rfl
  | cons y ys ih =>
    simp only [insertBy]
    split
    · exact List.Perm.refl _
    · exact (List.Perm.cons y ih).trans (List.Perm.swap x y ys)

lemma stableSort_perm (le : α → α → Bool) (l : List α) : List.Perm (stableSort le l) l := by
  induction l with
  | nil => rfl
  | cons x xs ih => exact (insertBy_perm le x (stableSort le xs)).trans (List.Perm.cons x ih)

lemma mem_stableSort {le : α → α → Bool} {a : α} {l : List α} :
    a ∈ stableSort le l ↔ a ∈ l :=
  (stableSort_perm le l).mem_iff

lemma pairwise_insertBy {le : α → α → Bool} {x : α} {l : List α}
    (htot : ∀ b ∈ l, le x b = true ∨ le b x = true)
    (htrans : ∀ b ∈ l, ∀ c ∈ l, le x b = true → le b c = true → le x c = true)
    (hl : l.Pairwise (fun a b => le a b = true)) :
    (insertBy le x l).Pairwise (fun a b => le a b = true) := by
  induction l with
  | nil => simp [insertBy]
  | cons y ys ih =>
    rw [List.pairwise_cons] at hl
    obtain ⟨hy, hys⟩ := hl
    simp only [insertBy]
    split
    · rename_i hxy
      refine List.pairwise_cons.mpr ⟨?_, List.pairwise_cons.mpr ⟨hy, hys⟩⟩
      intro b hb
      rcases List.mem_cons.mp hb with rfl | hb
      · exact hxy
      · exact htrans y (by simp) b (by simp [hb]) hxy (hy b hb)
    · rename_i hxy
      refine List.pairwise_cons.mpr ⟨?_, ih ?_ ?_ hys⟩
      · intro b hb
        rcases mem_insertBy.mp hb with rfl | hb
        · rcases htot y (by simp) with h | h
          · exact absurd h hxy
          · exact h
        · exact hy b hb
      · exact fun b hb => htot b (by simp [hb])
      · exact fun b hb c hc => htrans b (by simp [hb]) c (by simp [hc])

lemma pairwise_stableSort (le : α → α → Bool) (l : List α)
    (htot : ∀ a ∈ l, ∀ b ∈ l, le a b = true ∨ le b a = true)
    (htrans : ∀ a ∈ l, ∀ b ∈ l, ∀ c ∈ l, le a b = true → le b c = true → le a c = true) :
    (stableSort le l).Pairwise (fun a b => le a b = true) := by
  induction l with
  | nil => simp [stableSort]
  | cons x xs ih =>
    simp only [stableSort]
    have hmem : ∀ a ∈ stableSort le xs, a ∈ xs := fun a ha => mem_stableSort.mp ha
    apply pairwise_insertBy
    · exact fun b hb => htot x (by simp) b (by simp [hmem b hb])
    · exact fun b hb c hc =>
        htrans x (by simp) b (by simp [hmem b hb]) c (by simp [hmem c hc])
    · exact ih (fun a ha b hb => htot a (by simp [ha]) b (by simp [hb]))
        (fun a ha b hb c hc => htrans a (by simp [ha]) b (by simp [hb]) c (by simp [hc]))

/-- The toggle constant of page.tsx: N/A rows stay in the checklist. -/
def INCLUDE_NA_IN_IMPLEMENTATION : Bool := true

/-- The filter predicate of implementationRows. -/
def inChecklist (r : Row) : Bool :=
  decide (r.score ≠ "9") &&
    (if INCLUDE_NA_IN_IMPLEMENTATION then true else decide (r.score ≠ "N/A"))

/-- The numeric sort key used on priorities by the comparator of
implementationRows: the value of the JS expression Number(a.priority || 999).
none models NaN. -/
def prioNum (r : Row) : Option Rat :=
  if r.priority = "" then some 999 else jsNum r.priority

/-- The comparator of implementationRows, as a rational comparator value:
the JS expression (Number(a.priority||999) - Number(b.priority||999)) ||
(b.severity - a.severity).  When either priority key is NaN the numeric
difference is NaN, which is falsy, so the severity difference decides. -/
def implCmp (a b : SevRow) : Rat :=
  match prioNum a.row, prioNum b.row with
  | some pa, some pb =>
    if ratSub pa pb ≠ 0 then ratSub pa pb else ratSub b.severity a.severity
  | _, _ => ratSub b.severity a.severity

/-- Sort order induced by the comparator: a may stay in front of b when the
comparator value is nonpositive. -/
def implLE (a b : SevRow) : Bool :=
  decide (implCmp a b ≤ 0)

/-- implementationRows from page.tsx: filter out rows at score 9, attach the
computed severity, stable-sort by the priority-then-severity comparator. -/
def implementationRows (data : List Row) : List SevRow :=
  stableSort implLE
    ((data.filter inChecklist).map (fun r => SevRow.mk r (inferSeverity r.score)))

/-- Claim C6: a row appears in the implementation-checklist projection, with
some severity attached, exactly when it is a dataset row whose score is not
the string 9; in particular rows scored N/A or unscored are kept. -/
theorem c6_checklist_filter (d : List Row) (r : Row) :
    (∃ s, SevRow.mk r s ∈ implementationRows d) ↔ (r ∈ d ∧ r.score ≠ "9") := by
  unfold implementationRows
  constructor
  · rintro ⟨s, hs⟩
    rw [mem_stableSort] at hs
    obtain ⟨a, ha, hmk⟩ := List.mem_map.mp hs
    obtain ⟨hmem, hfil⟩ := List.mem_filter.mp ha
    obtain ⟨rfl, -⟩ := SevRow.mk.injEq .. ▸ hmk
    refine ⟨hmem, ?_⟩
    simpa [inChecklist, INCLUDE_NA_IN_IMPLEMENTATION] using hfil
  · rintro ⟨hmem, hscore⟩
    refine ⟨inferSeverity r.score, ?_⟩
    rw [mem_stableSort]
    exact List.mem_map.mpr ⟨r, List.mem_filter.mpr
      ⟨hmem, by simp [inChecklist, INCLUDE_NA_IN_IMPLEMENTATION, hscore]⟩, rfl⟩

/-- Witness for claim C6 at a one-row dataset with score N/A. -/
theorem c6_checklist_filter_witness :
    ∃ s, SevRow.mk (Row.mk 1 "" "" "" "" "" "" "" "N/A" "" false) s ∈
      implementationRows [Row.mk 1 "" "" "" "" "" "" "" "N/A" "" false] :=
  (c6_checklist_filter _ _).mpr ⟨by simp, by decide⟩

/-- The pairwise order asserted by claim C1 as stated: a row with empty
priority never precedes a row that has a priority, rows with numeric
priorities appear in ascending order, and priority ties are broken by
descending severity. -/
def claimC1Order (a b : SevRow) : Bool :=
  if a.row.priority = "" then decide (b.row.priority = "")
  else if b.row.priority = "" then true
  else
    match jsNum a.row.priority, jsNum b.row.priority with
    | some pa, some pb => decide (pa < pb ∨ (pa = pb ∧ b.severity ≤ a.severity))
    | _, _ => true

/-- A row template with every free-text field empty. -/
def blankRow : Row :=
  Row.mk 0 "" "" "" "" "" "" "" "" "" false

/-- Counterexample dataset for claim C1: one row without a priority and one
row with priority 1000. -/
def c1Data : List Row :=
  [{ blankRow with id := 1, score := "1" },
   { blankRow with id := 2, score := "2", priority := "1000" }]

/-- Counterexample for claim C1 as stated: in the projection of c1Data the
row with empty priority comes first, in front of the row with priority 1000,
because the code maps an empty priority to the numeric key 999; so the
missing-priority row does not sort after every row that has a priority. -/
theorem c1_checklist_order_cex :
    (implementationRows c1Data).map (fun x => x.row.priority) = ["", "1000"] ∧
    ¬ (implementationRows c1Data).Pairwise (fun a b => claimC1Order a b = true) := by
  constructor
  · decide
  · decide

/-- Effective numeric priority after the empty-priority fallback of the code;
a NaN priority is mapped to 0 here but the amended claim assumes priorities
parse. -/
def effPrio (x : SevRow) : Rat :=
  (prioNum x.row).getD 0

/-- The pairwise order of the amended claim C1: ascending effective numeric
priority, where an empty priority counts as the number 999, with ties broken
by descending severity. -/
def amendedC1Order (a b : SevRow) : Prop :=
  effPrio a < effPrio b ∨ (effPrio a = effPrio b ∧ b.severity ≤ a.severity)

lemma prioNum_isSome_of {r : Row} (h : r.priority = "" ∨ (jsNum r.priority).isSome) :
    (prioNum r).isSome := by
  unfold prioNum
  rcases h with h | h
  · simp [h]
  · split
    · simp
    · exact h

lemma implCmp_le_iff {a b : SevRow} {pa pb : Rat}
    (ha : prioNum a.row = some pa) (hb : prioNum b.row = some pb) :
    implCmp a b ≤ 0 ↔ (pa < pb ∨ (pa = pb ∧ b.severity ≤ a.severity)) := by
  unfold implCmp
  rw [ha, hb]
  simp only [ratSub_eq]
  by_cases hpp : pa - pb = 0
  · rw [if_neg (by simp [hpp])]
    have hpe : pa = pb := sub_eq_zero.mp hpp
    constructor
    · intro h6
      exact Or.inr ⟨hpe, by linarith [sub_nonpos.mp h6]⟩
    · rintro (h6 | ⟨-, h7⟩)
      · exact absurd hpe (ne_of_lt h6)
      · linarith
  · rw [if_pos hpp]
    constructor
    · intro h6
      exact Or.inl (lt_of_le_of_ne (sub_nonpos.mp h6) (fun he => hpp (by rw [he, sub_self])))
    · rintro (h6 | ⟨h6, -⟩)
      · linarith
      · exact absurd (by rw [h6, sub_self]) hpp

lemma effPrio_eq {x : SevRow} {p : Rat} (h : prioNum x.row = some p) : effPrio x = p := by
  simp [effPrio, h]

/-- Claim C1, amended: for a dataset in which every priority is either empty
or numeric, the implementation-checklist projection is ordered by ascending
effective numeric priority, where an empty priority is treated as the number
999 (hence it ties with 999 and precedes larger priorities instead of sorting
last), with ties broken by descending severity. -/
theorem c1_checklist_order_amended (d : List Row)
    (h : ∀ r ∈ d, r.priority = "" ∨ (jsNum r.priority).isSome) :
    (implementationRows d).Pairwise amendedC1Order := by
  have hbase : ∀ x ∈ (d.filter inChecklist).map
      (fun r => SevRow.mk r (inferSeverity r.score)), (prioNum x.row).isSome := by
    intro x hx
    obtain ⟨r, hr, rfl⟩ := List.mem_map.mp hx
    exact prioNum_isSome_of (h r (List.mem_filter.mp hr).1)
  have hiff : ∀ x, (prioNum x.row).isSome → ∀ y, (prioNum y.row).isSome →
      (implLE x y = true ↔ amendedC1Order x y) := by
    intro x hx y hy
    obtain ⟨px, hpx⟩ := Option.isSome_iff_exists.mp hx
    obtain ⟨py, hpy⟩ := Option.isSome_iff_exists.mp hy
    rw [implLE, decide_eq_true_eq, implCmp_le_iff hpx hpy,
      amendedC1Order, effPrio_eq hpx, effPrio_eq hpy]
  have hs := pairwise_stableSort implLE
    ((d.filter inChecklist).map (fun r => SevRow.mk r (inferSeverity r.score)))
    (fun a haa b hbb => by
      by_cases hle : implLE a b = true
      · exact Or.inl hle
      · refine Or.inr ?_
        rw [hiff b (hbase b hbb) a (hbase a haa)]
        rw [hiff a (hbase a haa) b (hbase b hbb)] at hle
        unfold amendedC1Order at hle ⊢
        push_neg at hle
        obtain ⟨h1, h2⟩ := hle
        rcases lt_or_eq_of_le h1 with h3 | h3
        · exact Or.inl h3
        · exact Or.inr ⟨h3, le_of_lt (h2 h3.symm)⟩)
    (fun a haa b hbb c hcc hab hbc => by
      rw [hiff a (hbase a haa) c (hbase c hcc)]
      rw [hiff a (hbase a haa) b (hbase b hbb)] at hab
      rw [hiff b (hbase b hbb) c (hbase c hcc)] at hbc
      rcases hab with h1 | ⟨h1, h2⟩ <;> rcases hbc with h3 | ⟨h3, h4⟩
      · exact Or.inl (lt_trans h1 h3)
      · exact Or.inl (h3 ▸ h1)
      · exact Or.inl (h1 ▸ h3)
      · exact Or.inr ⟨h1.trans h3, le_trans h4 h2⟩)
  refine List.Pairwise.imp_of_mem ?_ hs
  intro a b haa hbb hab
  rw [hiff a (hbase a (mem_stableSort.mp haa)) b (hbase b (mem_stableSort.mp hbb))] at hab
  exact hab

/-- Witness for the amended claim C1 at the concrete dataset c1Data, whose
priorities are empty or numeric. -/
theorem c1_checklist_order_amended_witness :
    (∀ r ∈ c1Data, r.priority = "" ∨ (jsNum r.priority).isSome) ∧
    (implementationRows c1Data).Pairwise amendedC1Order :=
  ⟨by decide, c1_checklist_order_amended c1Data (by decide)⟩

lemma toDigitsCore_length_le (b : Nat) :
    ∀ (fuel n : Nat) (ds : List Char),
      ds.length ≤ (Nat.toDigitsCore b fuel n ds).length := by
  intro fuel
  induction fuel with
  | zero => intro n ds; simp [Nat.toDigitsCore]
  | succ f ih =>
    intro n ds
    simp only [Nat.toDigitsCore]
    split
    · simp
    · exact le_trans (by simp) (ih _ _)

lemma toString_nat_ne_empty (n : Nat) : toString n ≠ "" := by
  show Nat.repr n ≠ ""
  unfold Nat.repr Nat.toDigits
  intro h
  have hlen : (Nat.toDigitsCore 10 (n + 1) n []).length = 0 := by
    have := congrArg String.length h
    simpa [String.length, List.asString] using this
  have h2 : 1 ≤ (Nat.toDigitsCore 10 (n + 1) n []).length := by
    simp only [Nat.toDigitsCore]
    split
    · simp
    · exact le_trans (by simp) (toDigitsCore_length_le 10 n (n / 10) _)
  omega

/-- Comparator of the severity ranking built by autoPrioritize: the JS
expression b.severity - a.severity, descending severity. -/
def sevCmp (a b : SevRow) : Rat :=
  ratSub b.severity a.severity

/-- Sort order induced by the severity comparator. -/
def sevLE (a b : SevRow) : Bool :=
  decide (sevCmp a b ≤ 0)

/-- The severity-ranked copy of the checklist projection that autoPrioritize
builds before numbering. -/
def rankedRows (data : List Row) : List SevRow :=
  stableSort sevLE (implementationRows data)

/-- The id-to-priority assignment built by autoPrioritize: position i in the
ranking receives the string of i + 1. -/
def rankAssign : Nat → List SevRow → List (Int × String)
  | _, [] => []
  | i, r :: rs => (r.row.id, toString (i + 1)) :: rankAssign (i + 1) rs

/-- The per-row update of autoPrioritize: look the row id up in the ranking
assignment and take the assigned priority when found and truthy, keeping the
old priority otherwise. -/
def applyRank (ranked : List (Int × String)) (r : Row) : Row :=
  match ranked.find? (fun x => decide (x.1 = r.id)) with
  | some x => { r with priority := if x.2 = "" then r.priority else x.2 }
  | none => { r with priority := r.priority }

/-- autoPrioritize from page.tsx. -/
def autoPrioritize (data : List Row) : List Row :=
  data.map (applyRank (rankAssign 0 (rankedRows data)))

lemma applyRank_id (ranked : List (Int × String)) (r : Row) :
    (applyRank ranked r).id = r.id := by
  unfold applyRank
  split <;> rfl

/-- First element of maximal severity in a list, earliest position winning
ties. -/
def firstMaxSev : List SevRow → Option SevRow
  | [] => none
  | x :: xs =>
    match firstMaxSev xs with
    | none => some x
    | some m => if m.severity ≤ x.severity then some x else some m

lemma firstMaxSev_eq_none {l : List SevRow} : firstMaxSev l = none ↔ l = [] := by
  cases l with
  | nil => simp [firstMaxSev]
  | cons x xs =>
    simp only [firstMaxSev]
    constructor
    · intro h
      exfalso
      rcases hx : firstMaxSev xs with - | m <;> rw [hx] at h
      · simp at h
      · have h2 : (if m.severity ≤ x.severity then some x else some m) = none := h
        split at h2 <;> simp at h2
    · intro h
      exact List.noConfusion h

lemma head_insertBy (le : α → α → Bool) (x : α) (l : List α) :
    (insertBy le x l).head? =
      some (match l with | [] => x | y :: _ => if le x y then x else y) := by
  cases l with
  | nil => rfl
  | cons y ys =>
    simp only [insertBy]
    split <;> simp_all

lemma head_stableSort_sev (l : List SevRow) :
    (stableSort sevLE l).head? = firstMaxSev l := by
  induction l with
  | nil => rfl
  | cons x xs ih =>
    simp only [stableSort]
    rw [head_insertBy]
    cases hs : stableSort sevLE xs with
    | nil =>
      have hxs : xs = [] := ((hs ▸ stableSort_perm sevLE xs).symm).eq_nil
      subst hxs
      simp [firstMaxSev]
    | cons y ys =>
      rw [hs] at ih
      simp only [firstMaxSev, ← ih]
      by_cases hc : y.severity ≤ x.severity <;>
        simp [sevLE, sevCmp, ratSub_eq, sub_nonpos, hc]

lemma firstMaxSev_spec :
    ∀ (l : List SevRow) (m : SevRow), firstMaxSev l = some m →
      ∃ i : Nat, l[i]? = some m ∧ (∀ x ∈ l, x.severity ≤ m.severity) ∧
        (∀ (j : Nat) (y : SevRow), j < i → l[j]? = some y →
          y.severity < m.severity) := by
  intro l
  induction l with
  | nil => intro m h; exact Option.noConfusion h
  | cons x xs ih =>
    intro m h
    simp only [firstMaxSev] at h
    rcases hx : firstMaxSev xs with - | m' <;> rw [hx] at h
    · have hxs : xs = [] := firstMaxSev_eq_none.mp hx
      subst hxs
      obtain rfl : x = m := by simpa using h
      refine ⟨0, by simp, ?_, fun j y hj _ => absurd hj (by omega)⟩
      intro z hz
      obtain rfl : z = x := by simpa using hz
      exact le_refl _
    · obtain ⟨i', hi', hmax', hstrict'⟩ := ih m' hx
      have h2 : (if m'.severity ≤ x.severity then some x else some m') = some m := h
      split at h2
      case isTrue hle =>
        obtain rfl : x = m := by simpa using h2
        refine ⟨0, by simp, ?_, fun j y hj _ => absurd hj (by omega)⟩
        intro z hz
        rcases List.mem_cons.mp hz with rfl | hz
        · exact le_refl _
        · exact le_trans (hmax' z hz) hle
      case isFalse hle =>
        obtain rfl : m' = m := by simpa using h2
        refine ⟨i' + 1, by simpa using hi', ?_, ?_⟩
        · intro z hz
          rcases List.mem_cons.mp hz with rfl | hz
          · exact le_of_lt (lt_of_not_le hle)
          · exact hmax' z hz
        · intro j y hj hjy
          match j with
          | 0 =>
            obtain rfl : x = y := by simpa using hjy
            exact lt_of_not_le hle
          | j + 1 =>
            exact hstrict' j y (by omega) (by simpa using hjy)

lemma find_rankAssign :
    ∀ (l : List SevRow) (n i : Nat) (x : SevRow),
      l.Pairwise (fun a b => a.row.id ≠ b.row.id) → l[i]? = some x →
      (rankAssign n l).find? (fun p => decide (p.1 = x.row.id)) =
        some (x.row.id, toString (n + i + 1)) := by
  intro l
  induction l with
  | nil => intro n i x _ h; simp at h
  | cons y ys ih =>
    intro n i x hpw hix
    rw [List.pairwise_cons] at hpw
    obtain ⟨hy, hys⟩ := hpw
    match i with
    | 0 =>
      obtain rfl : y = x := by simpa using hix
      simp [rankAssign]
    | i + 1 =>
      have hix' : ys[i]? = some x := by simpa using hix
      have hne : y.row.id ≠ x.row.id := hy x (List.getElem?_mem hix')
      have hstep := ih (n + 1) i x hys hix'
      rw [rankAssign, List.find?_cons_of_neg _ (by simpa using hne),
        show n + (i + 1) + 1 = (n + 1) + i + 1 from by omega]
      exact hstep

/-- Counterexample dataset for claim C8: two rows of equal severity, the first
dataset row carrying the larger manual priority. -/
def c8Data : List Row :=
  [{ blankRow with id := 1, score := "5", priority := "2" },
   { blankRow with id := 2, score := "5", priority := "1" }]

/-- Counterexample for claim C8 as stated: in c8Data both rows have the same
(maximal) severity and row 1 comes first in the dataset, so the claimed
original-order tie-break would give row 1 the priority 1; but the ranking is
built from the projection, which is sorted by the previous manual priorities,
so row 2 receives priority 1 and row 1 receives priority 2. -/
theorem c8_autoprioritize_cex :
    c8Data.map (fun r => r.id) = [1, 2] ∧
    (implementationRows c8Data).map (fun x => x.severity) =
      [inferSeverity "5", inferSeverity "5"] ∧
    (autoPrioritize c8Data).map (fun r => (r.id, r.priority)) = [(1, "2"), (2, "1")] := by
  exact ⟨by decide, by decide, by decide⟩

/-- Claim C8, amended: for a dataset with unique row ids, autoPrioritize
assigns to the row at position i of the severity-descending ranking of the
checklist projection the priority string of i + 1 (so consecutive integer
strings starting at 1), and the head of that ranking is the first row of
maximal severity in the checklist projection, ties in severity broken by the
order of the projection (not by original dataset order). -/
theorem c8_autoprioritize_amended (d : List Row)
    (hids : d.Pairwise (fun a b => a.id ≠ b.id)) :
    (∀ i x, (rankedRows d)[i]? = some x →
      ∀ r ∈ autoPrioritize d, r.id = x.row.id → r.priority = toString (i + 1)) ∧
    (∀ m, (rankedRows d).head? = some m →
      ∃ i : Nat, (implementationRows d)[i]? = some m ∧
        (∀ x ∈ implementationRows d, x.severity ≤ m.severity) ∧
        (∀ (j : Nat) (y : SevRow), j < i → (implementationRows d)[j]? = some y →
          y.severity < m.severity)) := by
  constructor
  · intro i x hix r hr hid
    obtain ⟨r0, hr0, rfl⟩ := List.mem_map.mp hr
    have hid0 : r0.id = x.row.id := by rw [← applyRank_id (rankAssign 0 (rankedRows d)) r0]; exact hid
    have hpw : (rankedRows d).Pairwise (fun a b => a.row.id ≠ b.row.id) := by
      have hbase : ((d.filter inChecklist).map
          (fun r => SevRow.mk r (inferSeverity r.score))).Pairwise
          (fun a b => a.row.id ≠ b.row.id) := by
        rw [List.pairwise_map]
        exact List.Pairwise.sublist (List.filter_sublist d) hids
      have himpl : (implementationRows d).Pairwise (fun a b => a.row.id ≠ b.row.id) :=
        ((stableSort_perm implLE _).pairwise_iff (fun hab => Ne.symm hab)).mpr hbase
      exact ((stableSort_perm sevLE _).pairwise_iff (fun hab => Ne.symm hab)).mpr himpl
    have hfind := find_rankAssign (rankedRows d) 0 i x hpw hix
    unfold applyRank
    rw [hid0, hfind]
    simp only
    rw [if_neg (toString_nat_ne_empty (0 + i + 1)),
      show 0 + i + 1 = i + 1 from by omega]
  · intro m hm
    rw [rankedRows, head_stableSort_sev] at hm
    exact firstMaxSev_spec (implementationRows d) m hm

/-- Witness for the amended claim C8 at the concrete dataset c8Data: the head
of the severity ranking is the row with id 2, and it receives priority 1. -/
theorem c8_autoprioritize_amended_witness :
    c8Data.Pairwise (fun a b => a.id ≠ b.id) ∧
    (∀ r ∈ autoPrioritize c8Data, r.id = 2 → r.priority = "1") := by
  refine ⟨by decide, ?_⟩
  intro r hr hid
  have h := (c8_autoprioritize_amended c8Data (by decide)).1 0
    (SevRow.mk { blankRow with id := 2, score := "5", priority := "1" }
      (inferSeverity "5")) (by decide) r hr (by simpa using hid)
  simpa using h

/-- The mutable fields of a row that onChangeField is invoked with; the id
key is never passed and stays immutable. -/
inductive RowField
  | inspectionElement | issueCategory | issueSubCategory | skillset
  | analysis | recommendations | implementer | score | priority | check
deriving DecidableEq, Repr

/-- Value type carried by each mutable field: the completion flag is boolean,
every other field is a string. -/
def RowFieldType : RowField → Type
  | .check => Bool
  | _ => String

/-- The object-spread one-field replacement performed by onChangeField. -/
def setField (r : Row) : (f : RowField) → RowFieldType f → Row
  | .inspectionElement, v => { r with inspectionElement := v }
  | .issueCategory, v => { r with issueCategory := v }
  | .issueSubCategory, v => { r with issueSubCategory := v }
  | .skillset, v => { r with skillset := v }
  | .analysis, v => { r with analysis := v }
  | .recommendations, v => { r with recommendations := v }
  | .implementer, v => { r with implementer := v }
  | .score, v => { r with score := v }
  | .priority, v => { r with priority := v }
  | .check, v => { r with check := v }

/-- Field projection of a row. -/
def getField (r : Row) : (f : RowField) → RowFieldType f
  | .inspectionElement => r.inspectionElement
  | .issueCategory => r.issueCategory
  | .issueSubCategory => r.issueSubCategory
  | .skillset => r.skillset
  | .analysis => r.analysis
  | .recommendations => r.recommendations
  | .implementer => r.implementer
  | .score => r.score
  | .priority => r.priority
  | .check => r.check

/-- onChangeField from page.tsx: map over the dataset, replacing the one
field of every row whose id matches. -/
def onChangeField (data : List Row) (id : Int) (f : RowField) (v : RowFieldType f) :
    List Row :=
  data.map (fun r => if r.id = id then setField r f v else r)

lemma getField_setField_self (r : Row) (f : RowField) (v : RowFieldType f) :
    getField (setField r f v) f = v := by
  cases f <;> rfl

lemma getField_setField_ne (r : Row) (f g : RowField) (v : RowFieldType f)
    (h : g ≠ f) : getField (setField r f v) g = getField r g := by
  cases f <;> cases g <;> first | exact absurd rfl h | rfl

lemma setField_id (r : Row) (f : RowField) (v : RowFieldType f) :
    (setField r f v).id = r.id := by
  cases f <;> rfl

/-- Claim C9: for a dataset with unique row ids, updating one field of the
row with a given id keeps the length and order, leaves every row with a
different id untouched, replaces exactly the named field of the unique
matching row while preserving its other fields and its id, and is a no-op
when no row carries the id. -/
theorem c9_update_frame (d : List Row) (id : Int) (f : RowField) (v : RowFieldType f)
    (huniq : d.Pairwise (fun a b => a.id ≠ b.id)) :
    (onChangeField d id f v).length = d.length ∧
    (∀ (j : Nat) (r : Row), d[j]? = some r → r.id ≠ id →
      (onChangeField d id f v)[j]? = some r) ∧
    (∀ (j : Nat) (r : Row), d[j]? = some r → r.id = id →
      (onChangeField d id f v)[j]? = some (setField r f v) ∧
      getField (setField r f v) f = v ∧
      (∀ g, g ≠ f → getField (setField r f v) g = getField r g) ∧
      (setField r f v).id = r.id ∧
      (∀ (k : Nat) (r2 : Row), d[k]? = some r2 → r2.id = id → k = j)) ∧
    ((∀ r ∈ d, r.id ≠ id) → onChangeField d id f v = d) := by
  refine ⟨List.length_map d _, ?_, ?_, ?_⟩
  · intro j r hj hne
    rw [onChangeField, List.getElem?_map, hj]
    simp [hne]
  · intro j r hj heq
    refine ⟨?_, getField_setField_self r f v,
      fun g hg => getField_setField_ne r f g v hg, setField_id r f v, ?_⟩
    · rw [onChangeField, List.getElem?_map, hj]
      simp [heq]
    · intro k r2 hk h2
      by_contra hkj
      rw [List.pairwise_iff_getElem] at huniq
      have hjl : j < d.length := (List.getElem?_eq_some_iff.mp hj).1
      have hkl : k < d.length := (List.getElem?_eq_some_iff.mp hk).1
      have hjv : d[j] = r := (List.getElem?_eq_some_iff.mp hj).2
      have hkv : d[k] = r2 := (List.getElem?_eq_some_iff.mp hk).2
      rcases Nat.lt_or_ge k j with hlt | hge
      · exact huniq k j hkl hjl hlt (by rw [hjv, hkv, h2, heq])
      · have hlt : j < k := by omega
        exact huniq j k hjl hkl hlt (by rw [hjv, hkv, h2, heq])
  · intro hall
    rw [onChangeField]
    conv_rhs => rw [← List.map_id d]
    apply List.map_congr_left
    intro r hr
    simp [hall r hr]

/-- Witness for claim C9 at a concrete two-row dataset: updating the score of
the row with id 2 keeps the dataset length. -/
theorem c9_update_frame_witness :
    (onChangeField
      [{ blankRow with id := 1 }, { blankRow with id := 2 }]
      2 RowField.score "5").length =
    ([{ blankRow with id := 1 }, { blankRow with id := 2 }] : List Row).length :=
  (c9_update_frame [{ blankRow with id := 1 }, { blankRow with id := 2 }]
    2 RowField.score "5" (by decide)).1

/-- JSON-like values, modelling the data the recommendation proxy receives
from the upstream API after JSON.parse. -/
inductive Json where
  | null
  | bool (b : Bool)
  | num (q : Rat)
  | str (s : String)
  | arr (elems : List Json)
  | obj (fields : List (String × Json))

/-- Property access with optional chaining: an object field (last entry wins,
as after JSON.parse), undefined on every other shape.  none models
undefined. -/
def Json.getProp : Json → String → Option Json
  | .obj fields, k => ((fields.filter (fun p => decide (p.1 = k))).map (fun p => p.2)).getLast?
  | _, _ => none

/-- Index access: array element, or the one-character string of a string
index as in JavaScript; undefined otherwise. -/
def Json.getIdx : Json → Nat → Option Json
  | .arr l, i => l[i]?
  | .str s, i => (s.data[i]?).map (fun c => Json.str (String.singleton c))
  | _, _ => none

/-- JavaScript truthiness of a value. -/
def Json.truthy : Json → Bool
  | .null => false
  | .bool b => b
  | .num q => decide (q ≠ 0)
  | .str s => decide (s ≠ "")
  | .arr _ => true
  | .obj _ => true

/-- JavaScript String() conversion of a value, used by the template strings
and the join of the source.  Number formatting is approximated by the Lean
rational printer; the claims never depend on it. -/
def Json.jsToString : Json → String
  | .null => "null"
  | .bool b => if b then "true" else "false"
  | .num q => toString q
  | .str s => s
  | .arr l => String.intercalate "," (l.attach.map (fun x => Json.jsToString x.1))
  | .obj _ => "[object Object]"
decreasing_by
  have := List.sizeOf_lt_of_mem x.2
  simp_wf
  omega

/-- The JavaScript || on possibly-undefined values: keep the first operand
when it is defined and truthy, otherwise the second. -/
def jsOr (a b : Option Json) : Option Json :=
  match a with
  | some x => if x.truthy then some x else b
  | none => b

/-- The JavaScript expression v ?? unknown followed by template-string
conversion: null or undefined becomes the string unknown. -/
def nullishStr : Option Json → String
  | none => "unknown"
  | some .null => "unknown"
  | some j => j.jsToString

/-- Result record of extractText: at most one of the two optional fields is
produced by the source. -/
structure ExtractResult where
  text : Option String := none
  explain : Option String := none
deriving DecidableEq, Repr

/-- The first element of the candidates field, data?.candidates?.[0]. -/
def firstCandidate (data : Json) : Option Json :=
  (data.getProp "candidates").bind (fun cs => cs.getIdx 0)

/-- The join of the text properties of a parts array, after dropping falsy
values, parts.map(p to text).filter(Boolean).join of the source. -/
def joinedOf (ps : List Json) : String :=
  String.join (ps.filterMap (fun p =>
    (p.getProp "text").bind (fun t => if t.truthy then some t.jsToString else none)))

/-- The joined text parts of the first candidate: when parts is an array, the
joined text, kept only when it is truthy (nonempty). -/
def joinedParts (data : Json) : Option String :=
  match ((firstCandidate data).bind (fun c => c.getProp "content")).bind
      (fun ct => ct.getProp "parts") with
  | some (.arr ps) => if joinedOf ps = "" then none else some (joinedOf ps)
  | _ => none

/-- The check typeof v is a string and v is truthy, applied to the fallback
fields of extractText. -/
def strField : Option Json → Option String
  | some (.str s) => if s = "" then none else some s
  | _ => none

/-- The finish reason chain of extractText: candidate finishReason, or
candidate finish_reason, or promptFeedback blockReason, under JavaScript
|| semantics. -/
def finishReasonOf (data : Json) : Option Json :=
  jsOr ((firstCandidate data).bind (fun c => c.getProp "finishReason"))
    (jsOr ((firstCandidate data).bind (fun c => c.getProp "finish_reason"))
      ((data.getProp "promptFeedback").bind (fun pf => pf.getProp "blockReason")))

/-- extractText from route.ts: joined candidate parts, then the output_text
fallback, then the top-level text fallback, otherwise a diagnostic naming the
finish or block reason. -/
def extractText (data : Json) : ExtractResult :=
  match joinedParts data with
  | some j => { text := some j }
  | none =>
    match strField ((firstCandidate data).bind (fun c => c.getProp "output_text")) with
    | some s => { text := some s }
    | none =>
      match strField (data.getProp "text") with
      | some s => { text := some s }
      | none =>
        { explain := some ("No text in response. finishReason=" ++
            nullishStr (finishReasonOf data)) }

lemma joinedParts_ne_empty {data : Json} {j : String}
    (h : joinedParts data = some j) : j ≠ "" := by
  unfold joinedParts at h
  split at h
  · split at h
    · exact Option.noConfusion h
    · rename_i hne
      obtain rfl : _ = j := Option.some.inj h
      exact hne
  · exact Option.noConfusion h

lemma strField_ne_empty {o : Option Json} {s : String}
    (h : strField o = some s) : s ≠ "" := by
  unfold strField at h
  split at h
  · split at h
    · exact Option.noConfusion h
    · rename_i hne
      obtain rfl : _ = s := Option.some.inj h
      exact hne
  · exact Option.noConfusion h

/-- Claim C10: for every upstream value the extractor produces either a
nonempty text or a diagnostic string that names the finish or block reason,
and on a value with none of the expected fields the reason defaults to
unknown. -/
theorem c10_extract_text_or_explain :
    (∀ data : Json,
      (∃ t, (extractText data).text = some t ∧ t ≠ "") ∨
      (∃ r, (extractText data).explain =
        some ("No text in response. finishReason=" ++ r))) ∧
    extractText (Json.obj []) =
      { text := none, explain := some "No text in response. finishReason=unknown" } := by
  constructor
  · intro data
    unfold extractText
    split
    · rename_i j hj
      exact Or.inl ⟨j, rfl, joinedParts_ne_empty hj⟩
    · split
      · rename_i s hs
        exact Or.inl ⟨s, rfl, strField_ne_empty hs⟩
      · split
        · rename_i s hs
          exact Or.inl ⟨s, rfl, strField_ne_empty hs⟩
        · exact Or.inr ⟨nullishStr (finishReasonOf data), rfl⟩
  · rfl

/-- The body of a recommendation request after the destructuring defaults of
route.ts: all five fields are strings defaulting to the empty string. -/
structure RecRequest where
  analysis : String
  score : String
  element : String
  category : String
  subcategory : String
deriving DecidableEq, Repr

/-- Outcome of the one outbound fetch: a thrown transport error, or a
response with status, raw body text and its parse (none when the body is
empty or unparseable, in which case the code falls back to an empty
object). -/
inductive FetchOutcome
  | throws (err : String)
  | returns (status : Nat) (raw : String) (parsed : Option Json)

/-- An HTTP response of the proxy: the JSON body and the status code. -/
structure ApiResponse where
  body : Json
  status : Nat

/-- The response body shape used on every return path of the proxy. -/
def jsonRec (s : String) : Json :=
  Json.obj [("recommendation", Json.str s)]

/-- The no-text success response of the proxy. -/
def noTextResponse (er : ExtractResult) : ApiResponse :=
  ⟨jsonRec (jsTrim ("No recommendation text returned. " ++ er.explain.getD "")), 200⟩

/-- The branch of the proxy for an upstream success status: return the
extracted text when truthy, otherwise the explanatory no-text message. -/
def okResponse (data : Json) : ApiResponse :=
  match (extractText data).text with
  | some t => if t = "" then noTextResponse (extractText data) else ⟨jsonRec t, 200⟩
  | none => noTextResponse (extractText data)

/-- POST from route.ts.  apiKey none models an absent credential; reqBody
error e models req.json() throwing (caught by the outer try with message e);
the second component counts outbound fetch calls issued. -/
def POST (apiKey : Option String) (reqBody : Except String RecRequest)
    (fetchResult : FetchOutcome) : ApiResponse × Nat :=
  match apiKey with
  | none => (⟨jsonRec "Server is missing GOOGLE_GENAI_API_KEY.", 500⟩, 0)
  | some _ =>
    match reqBody with
    | .error e => (⟨jsonRec ("Server error: " ++ e), 500⟩, 0)
    | .ok req =>
      if req.score = "9" then
        (⟨jsonRec ("No action needed. “" ++ req.element ++
          "” meets best practices. Maintain current implementation and monitor over time."),
          200⟩, 0)
      else
        match fetchResult with
        | .throws e => (⟨jsonRec ("Server error: " ++ e), 500⟩, 1)
        | .returns status raw parsed =>
          if ¬(200 ≤ status ∧ status ≤ 299) then
            (⟨jsonRec ("Gemini error: " ++ toString status ++ " " ++ raw), 500⟩, 1)
          else
            (okResponse (parsed.getD (Json.obj [])), 1)

/-- Claim C5: with the credential absent the proxy answers status 500 with
the fixed message naming the missing GOOGLE_GENAI_API_KEY configuration, and
issues zero outbound calls, for every request body and every would-be fetch
outcome. -/
theorem c5_missing_credential (reqBody : Except String RecRequest) (f : FetchOutcome) :
    POST none reqBody f =
      (⟨jsonRec "Server is missing GOOGLE_GENAI_API_KEY.", 500⟩, 0) := rfl

/-- Claim C3: a request whose score is exactly the string 9 is answered, with
the credential configured, by the fixed acknowledgment sentence referencing
the element field, status 200, and zero outbound calls, independent of the
fetch outcome. -/
theorem c3_score_nine_short_circuit (key : String) (req : RecRequest)
    (f : FetchOutcome) (h : req.score = "9") :
    (POST (some key) (.ok req) f).2 = 0 ∧
    (POST (some key) (.ok req) f).1.status = 200 ∧
    (POST (some key) (.ok req) f).1.body =
      jsonRec ("No action needed. “" ++ req.element ++
        "” meets best practices. Maintain current implementation and monitor over time.") := by
  refine ⟨?_, ?_, ?_⟩ <;> simp [POST, h]

/-- Witness for claim C3 at a concrete request. -/
theorem c3_score_nine_short_circuit_witness :
    (POST (some "key") (.ok (RecRequest.mk "notes" "9" "Canonical tags" "cat" "sub"))
      (.throws "network down")).2 = 0 ∧
    (POST (some "key") (.ok (RecRequest.mk "notes" "9" "Canonical tags" "cat" "sub"))
      (.throws "network down")).1.status = 200 ∧
    (POST (some "key") (.ok (RecRequest.mk "notes" "9" "Canonical tags" "cat" "sub"))
      (.throws "network down")).1.body =
      jsonRec ("No action needed. “" ++ "Canonical tags" ++
        "” meets best practices. Maintain current implementation and monitor over time.") :=
  c3_score_nine_short_circuit "key" (RecRequest.mk "notes" "9" "Canonical tags" "cat" "sub")
    (.throws "network down") rfl

/-- Claim C4: on every path of the proxy, for every credential state, request
body and fetch outcome, the response body is an object carrying a
recommendation string field. -/
theorem c4_recommendation_always_present (apiKey : Option String)
    (reqBody : Except String RecRequest) (f : FetchOutcome) :
    ∃ s, (POST apiKey reqBody f).1.body.getProp "recommendation" =
      some (Json.str s) := by
  have hrec : ∀ s : String, (jsonRec s).getProp "recommendation" = some (Json.str s) :=
    fun s => rfl
  unfold POST
  rcases apiKey with - | key
  · exact ⟨_, hrec _⟩
  rcases reqBody with e | req
  · exact ⟨_, hrec _⟩
  dsimp only
  by_cases h9 : req.score = "9"
  · rw [if_pos h9]
    exact ⟨_, hrec _⟩
  rw [if_neg h9]
  rcases f with e | ⟨status, raw, parsed⟩
  · exact ⟨_, hrec _⟩
  dsimp only
  by_cases hok : 200 ≤ status ∧ status ≤ 299
  · rw [if_neg (not_not_intro hok)]
    unfold okResponse
    split
    · split
      · exact ⟨_, hrec _⟩
      · exact ⟨_, hrec _⟩
    · exact ⟨_, hrec _⟩
  · rw [if_pos hok]
    exact ⟨_, hrec _⟩

end TechSeo
